import Mathlib

/-!
Verification of the smart-gpa-calculator core: the heuristic text-to-record
parser (`parseTextLocally`, src/unnamed/part_001 lines 13-119) and the
statistics engine (`calculateStats` and `chartData`, src/App.tsx lines 65-114).

Modelling conventions of the shallow embedding:
* JavaScript strings are modelled as `List Char`.  All characters that occur in
  the source's data and tokens are in the basic multilingual plane, where the
  JS UTF-16 `length` coincides with the codepoint count used here.
* JavaScript numbers produced by `parseFloat` on tokens of shape
  `\d+(\.\d+)?` are modelled as exact decimal rationals (`ℚ`).  The binary
  floating-point rounding of extremely long decimal literals is not modelled.
* `Number.prototype.toFixed(2)` (which returns a decimal string) is modelled by
  the exact rational value that string denotes: round to the nearest multiple
  of 1/100, ties towards the larger value, exactly as ECMAScript specifies.
* The `id` field of a record (a fresh UUID taken from an external generator)
  is external nondeterminism and is omitted; the specification's claims only
  concern the `(name, credit, score)` content and the `isPlanned` flag.
-/

/-- The character set matched by `\s` in a JavaScript regular expression and
stripped by `String.prototype.trim` (WhiteSpace plus LineTerminator). -/
def isJsSpace (c : Char) : Bool :=
  c == ' ' || c == '\t' || c == '\n' || c == '\x0b' || c == '\x0c' || c == '\r' ||
  c == '\u00A0' || c == '\u1680' || ('\u2000' ≤ c && c ≤ '\u200A') ||
  c == '\u2028' || c == '\u2029' || c == '\u202F' || c == '\u205F' ||
  c == '\u3000' || c == '\uFEFF'

/-- JavaScript `String.prototype.trim`: drop leading and trailing whitespace. -/
def jsTrim (l : List Char) : List Char :=
  List.rdropWhile isJsSpace (List.dropWhile isJsSpace l)

/-- `text.split('\n')` on a character list. -/
def splitLines : List Char → List (List Char)
  | [] => [[]]
  | c :: cs =>
    if c = '\n' then [] :: splitLines cs
    else
      match splitLines cs with
      | [] => [[c]]
      | l :: ls => (c :: l) :: ls

/-- Join a list of lines with `'\n'` (inverse of `splitLines` on
newline-free lines); used to feed a line list back to a text-level stage. -/
def joinLines : List (List Char) → List Char
  | [] => []
  | [l] => l
  | l :: ls => l ++ '\n' :: joinLines ls

/-- The character class `[|\s\-:]` of the Markdown-divider test
`/^[|\s\-:]+$/` (src/unnamed/part_001 line 35). -/
def isDividerChar (c : Char) : Bool :=
  c == '|' || isJsSpace c || c == '-' || c == ':'

/-- `/^[|\s\-:]+$/.test(line)`: the line is nonempty and consists solely of
`|`, `-`, `:` and whitespace (src/unnamed/part_001 line 35). -/
def isDivider (l : List Char) : Bool :=
  !l.isEmpty && l.all isDividerChar

/-- `line.replace(/[|]/g, ' ')` (src/unnamed/part_001 line 40). -/
def pipeToSpace (c : Char) : Char := if c = '|' then ' ' else c

/-- `line.replace(/[,，\t]/g, ' ')` (src/unnamed/part_001 line 52). -/
def sepToSpace (c : Char) : Char :=
  if c = ',' || c = '，' || c = '\t' then ' ' else c

/-- Structural worker for `collapseWs`; the fuel argument (instantiated with
the length of the list, which bounds the recursion depth) only makes the
recursion structural. -/
def collapseWsGo : ℕ → List Char → List Char
  | 0, l => l
  | _ + 1, [] => []
  | fuel + 1, c :: cs =>
    if isJsSpace c then ' ' :: collapseWsGo fuel (cs.dropWhile isJsSpace)
    else c :: collapseWsGo fuel cs

/-- `namePart.replace(/\s+/g, ' ')`: collapse every maximal whitespace run to
one space (src/unnamed/part_001 line 99). -/
def collapseWs (l : List Char) : List Char := collapseWsGo l.length l

/-- `name.replace(/[-–—:：]+$/, '')`: strip a maximal trailing run of
dash/colon characters (src/unnamed/part_001 line 100). -/
def stripTrailingPunct (l : List Char) : List Char :=
  List.rdropWhile (fun c => c == '-' || c == '–' || c == '—' || c == ':' || c == '：') l

/-- Split a list around the last occurrence of `needle`, as
`String.prototype.lastIndexOf` finds it (src/unnamed/part_001 lines 88, 94):
returns the part before and the part after the occurrence, preferring
occurrences further to the right. -/
def lastSplit (needle : List Char) : List Char → Option (List Char × List Char)
  | [] => if needle.isEmpty then some ([], []) else none
  | c :: hs =>
    match lastSplit needle hs with
    | some (p, s) => some (c :: p, s)
    | none =>
      if needle.isPrefixOf (c :: hs) then some ([], (c :: hs).drop needle.length)
      else none

/-- Remove the last occurrence of `needle` (no-op when absent), modelling
`lastIndexOf` followed by the two `substring` splices
(src/unnamed/part_001 lines 88-97). -/
def removeLastOcc (needle hay : List Char) : List Char :=
  match lastSplit needle hay with
  | some (p, s) => p ++ s
  | none => hay

/-- Numeric value of a digit character. -/
def digitVal (c : Char) : ℕ := c.toNat - '0'.toNat

/-- Decimal value of a digit string. -/
def natOfDigits (ds : List Char) : ℕ :=
  ds.foldl (fun a c => a * 10 + digitVal c) 0

/-- `parseFloat` on a token matched by `/\d+(?:\.\d+)?/`: the exact decimal
value of the integer part plus the fractional part (src/unnamed/part_001
lines 61-62). -/
def parseNum (t : List Char) : ℚ :=
  let ip := t.takeWhile Char.isDigit
  let rest := t.dropWhile Char.isDigit
  let fp : ℚ :=
    match rest with
    | '.' :: fs =>
      (natOfDigits (fs.takeWhile Char.isDigit) : ℚ) /
        (10 : ℚ) ^ (fs.takeWhile Char.isDigit).length
    | _ => 0
  (natOfDigits ip : ℚ) + fp

/-- Greedy match of `/\d+(?:\.\d+)?/` starting at the head of the list
(assumed to be a digit): returns the matched token and the rest of the
input after the match. -/
def numTok (cs : List Char) : List Char × List Char :=
  let ds := cs.takeWhile Char.isDigit
  let r := cs.dropWhile Char.isDigit
  match r with
  | '.' :: r2 =>
    let fs := r2.takeWhile Char.isDigit
    if fs.isEmpty then (ds, r) else (ds ++ '.' :: fs, r2.dropWhile Char.isDigit)
  | _ => (ds, r)

/-- Structural worker for `extractNumbers`; each step consumes at least one
character, so fuel equal to the length of the list is always sufficient. -/
def extractNumbersGo : ℕ → List Char → List (List Char)
  | 0, _ => []
  | _ + 1, [] => []
  | fuel + 1, c :: cs =>
    if c.isDigit then (numTok (c :: cs)).1 :: extractNumbersGo fuel (numTok (c :: cs)).2
    else extractNumbersGo fuel cs

/-- `cleanLine.match(/(\d+(?:\.\d+)?)/g)`: the ordered list of numeric tokens
of the line, with their exact matched text (src/unnamed/part_001 line 56). -/
def extractNumbers (cs : List Char) : List (List Char) := extractNumbersGo cs.length cs

/-- The fixed grade lookup table, in source (insertion) order, which is the
order `Object.keys` iterates it (src/unnamed/part_001 lines 14-25). -/
def gradeMap : List (String × String) :=
  [("A+", "98"), ("A", "95"), ("A-", "90"),
   ("B+", "88"), ("B", "85"), ("B-", "80"),
   ("C+", "78"), ("C", "75"), ("C-", "70"),
   ("D", "65"), ("F", "0"),
   ("优秀", "95"), ("优", "95"),
   ("良好", "85"), ("良", "85"),
   ("中等", "75"), ("中", "75"),
   ("及格", "65"), ("合格", "80"),
   ("不及格", "0"), ("挂科", "0"),
   ("Pass", "80"), ("Fail", "0")]

/-- Left-boundary class `[\s\t,，:：\-]` of the grade-token regex
(src/unnamed/part_001 line 45). -/
def isLB (c : Char) : Bool :=
  isJsSpace c || c == ',' || c == '，' || c == ':' || c == '：' || c == '-'

/-- Right-boundary class `[\s\t,，]` of the grade-token regex
(src/unnamed/part_001 line 45). -/
def isRB (c : Char) : Bool :=
  isJsSpace c || c == ',' || c == '，'

/-- Case-insensitive character comparison, as the regex `i` flag
canonicalizes characters. -/
def ciEq (a b : Char) : Bool := a.toLower == b.toLower

/-- `key` is a case-insensitive prefix of the list. -/
def ciPrefix : List Char → List Char → Bool
  | [], _ => true
  | _ :: _, [] => false
  | k :: ks, c :: cs => ciEq k c && ciPrefix ks cs

/-- The token `key` matches at the head of `cs` and is followed by a right
boundary (`($|[\s\t,，])` in the regex of src/unnamed/part_001 line 45). -/
def boundedHere (key cs : List Char) : Bool :=
  ciPrefix key cs &&
    (match cs.drop key.length with
     | [] => true
     | c :: _ => isRB c)

/-- Scan for the leftmost occurrence of `key` that is preceded by a
left-boundary character, replacing it by `val`; the boundary characters are
preserved, exactly as the `$1`/`$2` groups of the replacement string do
(src/unnamed/part_001 line 47). -/
def replAux (key val : List Char) : List Char → List Char
  | [] => []
  | c :: cs =>
    if isLB c && boundedHere key cs then c :: (val ++ cs.drop key.length)
    else c :: replAux key val cs

/-- One grade-token rewriting step of src/unnamed/part_001 lines 43-49: the
first occurrence of `key` bounded by `(^|[\s\t,，:：\-])` on the left and
`($|[\s\t,，])` on the right (case-insensitively) is replaced by `val`; a
line with no such occurrence is returned unchanged.  The start-of-line
alternative of the regex is tried first, then the scan moves rightwards,
matching JavaScript leftmost-match semantics. -/
def replaceFirstGrade (key val cs : List Char) : List Char :=
  if boundedHere key cs then val ++ cs.drop key.length
  else replAux key val cs

/-- The GradeNormalizer: the `Object.keys(gradeMap).forEach` loop of
src/unnamed/part_001 lines 43-49, applying the keys in table order, each to
the result of the previous replacements. -/
def normalizeGrades (cs : List Char) : List Char :=
  gradeMap.foldl (fun acc kv => replaceFirstGrade kv.1.toList kv.2.toList acc) cs

/-- A course record as pushed by the parser (src/unnamed/part_001
lines 108-114) and consumed by the statistics engine (src/App.tsx).
See the module comment for why the `id` field is omitted. -/
structure Course where
  name : List Char
  credit : ℚ
  score : ℚ
  isPlanned : Bool
deriving DecidableEq, Repr

/-- The fully cleaned line on which numbers are extracted: trim, dissolve
pipes, normalize grade tokens, normalize separators, trim
(src/unnamed/part_001 lines 31-52, the value `cleanLine`). -/
def cleanedLine (line : List Char) : List Char :=
  jsTrim ((normalizeGrades ((jsTrim line).map pipeToSpace)).map sepToSpace)

/-- The credit/score magnitude heuristic of src/unnamed/part_001 lines 64-78:
given the values of the second-to-last and last numeric tokens, returns the
`(credit, score)` pair. -/
def disambiguate (v1 v2 : ℚ) : ℚ × ℚ :=
  if v1 ≤ 20 ∧ 20 < v2 then (v1, v2)
  else if v2 ≤ 20 ∧ 20 < v1 then (v2, v1)
  else (v1, v2)

/-- The body of the per-line loop of `parseTextLocally`
(src/unnamed/part_001 lines 30-117): a line either yields one complete
record or nothing. -/
def parseLine (line : List Char) : Option Course :=
  if isDivider (jsTrim line) then none
  else
    match (extractNumbers (cleanedLine line)).reverse with
    | m2 :: m1 :: _ =>
      let cs := disambiguate (parseNum m1) (parseNum m2)
      let np := removeLastOcc m1 (removeLastOcc m2 (cleanedLine line))
      let name := jsTrim (stripTrailingPunct (jsTrim (collapseWs np)))
      if name ≠ [] ∧ name.length < 50 then
        some { name := name, credit := cs.1, score := cs.2, isPlanned := false }
      else none
    | _ => none

/-- `parseTextLocally` (src/unnamed/part_001 lines 13-119): split the text
into lines, keep lines that are nonempty after trimming, and collect the
records the per-line parse produces, in line order. -/
def parseTextLocally (text : List Char) : List Course :=
  ((splitLines text).filter (fun l => !(jsTrim l).isEmpty)).filterMap parseLine

/-- The LinePreprocessor stage of `parseTextLocally` (src/unnamed/part_001
lines 27-52, excluding the GradeNormalizer step of lines 43-49, which the
specification describes as a separate component): split into lines, drop
lines empty after trimming, drop Markdown divider rows, dissolve pipes,
normalize separators, trim. -/
def preprocess (text : List Char) : List (List Char) :=
  ((splitLines text).filter (fun l => !(jsTrim l).isEmpty)).filterMap
    (fun line =>
      let t := jsTrim line
      if isDivider t then none
      else some (jsTrim ((t.map pipeToSpace).map sepToSpace)))

/-- The grade-point step curve of src/App.tsx lines 73-83. -/
def gradePoint (s : ℚ) : ℚ :=
  if 90 ≤ s then 4 else if 85 ≤ s then 3.7 else if 82 ≤ s then 3.3
  else if 78 ≤ s then 3 else if 75 ≤ s then 2.7 else if 72 ≤ s then 2.3
  else if 68 ≤ s then 2 else if 64 ≤ s then 1.5 else if 60 ≤ s then 1 else 0

/-- The exact decimal value of the string `x.toFixed(2)` returns: the nearest
multiple of 1/100, ties towards the larger candidate (ECMAScript
`Number.prototype.toFixed`). -/
def toFixed2 (x : ℚ) : ℚ := (⌊x * 100 + 1 / 2⌋ : ℚ) / 100

/-- The record returned by `calculateStats` (src/App.tsx line 88).
`weightedAvg` and `gpa` carry the decimal value of the formatted strings. -/
structure Stats where
  totalCredits : ℚ
  weightedAvg : ℚ
  gpa : ℚ
  count : ℕ
deriving DecidableEq, Repr

/-- `calculateStats` (src/App.tsx lines 65-89). -/
def calculateStats (courseList : List Course) : Stats :=
  let totalCredits := courseList.foldl (fun sum c => sum + c.credit) 0
  let weightedSum := courseList.foldl (fun sum c => sum + c.score * c.credit) 0
  let weightedAvg := if 0 < totalCredits then toFixed2 (weightedSum / totalCredits) else 0
  let totalGPAPoints :=
    courseList.foldl (fun sum c => sum + gradePoint c.score * c.credit) 0
  let gpa := if 0 < totalCredits then toFixed2 (totalGPAPoints / totalCredits) else 0
  { totalCredits := totalCredits, weightedAvg := weightedAvg, gpa := gpa,
    count := courseList.length }

/-- The five accumulators of the `distribution` array (src/App.tsx
lines 99-105), before filtering. -/
structure BandDist where
  b90 : ℚ
  b80 : ℚ
  b70 : ℚ
  b60 : ℚ
  bLow : ℚ
deriving DecidableEq, Repr

/-- One step of the `targetCourses.forEach` accumulation of src/App.tsx
lines 106-112. -/
def addToDist (d : BandDist) (c : Course) : BandDist :=
  if 90 ≤ c.score then { d with b90 := d.b90 + c.credit }
  else if 80 ≤ c.score then { d with b80 := d.b80 + c.credit }
  else if 70 ≤ c.score then { d with b70 := d.b70 + c.credit }
  else if 60 ≤ c.score then { d with b60 := d.b60 + c.credit }
  else { d with bLow := d.bLow + c.credit }

/-- `chartData` (src/App.tsx lines 97-114) as a function of the course list:
the five labelled credit-weighted bands, keeping only those with a positive
accumulated value. -/
def chartData (courses : List Course) : List (String × ℚ) :=
  let d := courses.foldl addToDist ⟨0, 0, 0, 0, 0⟩
  ([("90-100 (优)", d.b90), ("80-89 (良)", d.b80), ("70-79 (中)", d.b70),
    ("60-69 (及格)", d.b60), ("< 60 (不及格)", d.bLow)]).filter
    (fun p => decide (0 < p.2))

/-- Σ credit over a record list. -/
def sumCredit (cs : List Course) : ℚ := (cs.map (fun c => c.credit)).sum

/-- Σ score·credit over a record list. -/
def sumScoreCredit (cs : List Course) : ℚ := (cs.map (fun c => c.score * c.credit)).sum

/-- Σ gradePoint(score)·credit over a record list. -/
def sumGradePoints (cs : List Course) : ℚ :=
  (cs.map (fun c => gradePoint c.score * c.credit)).sum

/-- Σ credit over the records whose score satisfies `f`. -/
def sumCreditWhere (f : ℚ → Bool) (cs : List Course) : ℚ :=
  ((cs.filter (fun c => f c.score)).map (fun c => c.credit)).sum

theorem foldl_add_map (f : Course → ℚ) (a : ℚ) (cs : List Course) :
    cs.foldl (fun s c => s + f c) a = a + (cs.map f).sum := by
  induction cs generalizing a with
  | nil => simp
  | cons c cs ih => simp [ih, add_assoc]

theorem sumCreditWhere_cons (f : ℚ → Bool) (c : Course) (cs : List Course) :
    sumCreditWhere f (c :: cs) =
      (if f c.score then c.credit else 0) + sumCreditWhere f cs := by
  simp only [sumCreditWhere, List.filter_cons]
  split <;> simp

theorem sumCreditWhere_nonneg (f : ℚ → Bool) (cs : List Course)
    (hc : ∀ c ∈ cs, 0 ≤ c.credit) : 0 ≤ sumCreditWhere f cs := by
  refine List.sum_nonneg ?_
  intro x hx
  rcases List.mem_map.mp hx with ⟨c, hcmem, rfl⟩
  exact hc c (List.mem_of_mem_filter hcmem)

theorem sumCreditWhere_congr {f g : ℚ → Bool} (cs : List Course)
    (h : ∀ c ∈ cs, f c.score = g c.score) :
    sumCreditWhere f cs = sumCreditWhere g cs := by
  unfold sumCreditWhere
  rw [List.filter_congr h]

theorem sumCreditWhere_zero (f : ℚ → Bool) (cs : List Course)
    (hz : ∀ c ∈ cs, c.credit = 0) : sumCreditWhere f cs = 0 := by
  refine List.sum_eq_zero ?_
  intro x hx
  rcases List.mem_map.mp hx with ⟨c, hcmem, rfl⟩
  exact hz c (List.mem_of_mem_filter hcmem)

theorem foldl_addToDist_b90 (cs : List Course) (d : BandDist) :
    (cs.foldl addToDist d).b90 =
      d.b90 + sumCreditWhere (fun s => decide (90 ≤ s)) cs := by
  induction cs generalizing d with
  | nil => simp [sumCreditWhere]
  | cons c cs ih =>
    rw [List.foldl_cons, ih, sumCreditWhere_cons]
    rcases le_or_lt 90 c.score with h1 | h1
    · simp [addToDist, h1]
      all_goals ring
    · rcases le_or_lt 80 c.score with h2 | h2
      · simp [addToDist, not_le.mpr h1, h2]
        all_goals ring
      · rcases le_or_lt 70 c.score with h3 | h3
        · simp [addToDist, not_le.mpr h1, not_le.mpr h2, h3]
          all_goals ring
        · rcases le_or_lt 60 c.score with h4 | h4
          · simp [addToDist, not_le.mpr h1, not_le.mpr h2, not_le.mpr h3, h4]
            all_goals ring
          · simp [addToDist, not_le.mpr h1, not_le.mpr h2, not_le.mpr h3, not_le.mpr h4]
            all_goals ring

theorem foldl_addToDist_b80 (cs : List Course) (d : BandDist) :
    (cs.foldl addToDist d).b80 =
      d.b80 + sumCreditWhere (fun s => decide (80 ≤ s) && decide (s < 90)) cs := by
  induction cs generalizing d with
  | nil => simp [sumCreditWhere]
  | cons c cs ih =>
    rw [List.foldl_cons, ih, sumCreditWhere_cons]
    rcases le_or_lt 90 c.score with h1 | h1
    · simp [addToDist, h1, (le_trans (by norm_num : (80 : ℚ) ≤ 90) h1), not_lt.mpr h1]
      all_goals ring
    · rcases le_or_lt 80 c.score with h2 | h2
      · simp [addToDist, not_le.mpr h1, h2, h1]
        all_goals ring
      · rcases le_or_lt 70 c.score with h3 | h3
        · simp [addToDist, not_le.mpr h1, not_le.mpr h2, h3, h1]
          all_goals ring
        · rcases le_or_lt 60 c.score with h4 | h4
          · simp [addToDist, not_le.mpr h1, not_le.mpr h2, not_le.mpr h3, h4, h1]
            all_goals ring
          · simp [addToDist, not_le.mpr h1, not_le.mpr h2, not_le.mpr h3, not_le.mpr h4, h1]
            all_goals ring

theorem foldl_addToDist_b70 (cs : List Course) (d : BandDist) :
    (cs.foldl addToDist d).b70 =
      d.b70 + sumCreditWhere (fun s => decide (70 ≤ s) && decide (s < 80)) cs := by
  induction cs generalizing d with
  | nil => simp [sumCreditWhere]
  | cons c cs ih =>
    rw [List.foldl_cons, ih, sumCreditWhere_cons]
    rcases le_or_lt 90 c.score with h1 | h1
    · simp [addToDist, h1, (le_trans (by norm_num : (70 : ℚ) ≤ 90) h1), not_lt.mpr (le_trans (by norm_num : (80 : ℚ) ≤ 90) h1)]
      all_goals ring
    · rcases le_or_lt 80 c.score with h2 | h2
      · simp [addToDist, not_le.mpr h1, h2, (le_trans (by norm_num : (70 : ℚ) ≤ 80) h2), not_lt.mpr h2]
        all_goals ring
      · rcases le_or_lt 70 c.score with h3 | h3
        · simp [addToDist, not_le.mpr h1, not_le.mpr h2, h3, h2]
          all_goals ring
        · rcases le_or_lt 60 c.score with h4 | h4
          · simp [addToDist, not_le.mpr h1, not_le.mpr h2, not_le.mpr h3, h4, h2]
            all_goals ring
          · simp [addToDist, not_le.mpr h1, not_le.mpr h2, not_le.mpr h3, not_le.mpr h4, h2]
            all_goals ring

theorem foldl_addToDist_b60 (cs : List Course) (d : BandDist) :
    (cs.foldl addToDist d).b60 =
      d.b60 + sumCreditWhere (fun s => decide (60 ≤ s) && decide (s < 70)) cs := by
  induction cs generalizing d with
  | nil => simp [sumCreditWhere]
  | cons c cs ih =>
    rw [List.foldl_cons, ih, sumCreditWhere_cons]
    rcases le_or_lt 90 c.score with h1 | h1
    · simp [addToDist, h1, (le_trans (by norm_num : (60 : ℚ) ≤ 90) h1), not_lt.mpr (le_trans (by norm_num : (70 : ℚ) ≤ 90) h1)]
      all_goals ring
    · rcases le_or_lt 80 c.score with h2 | h2
      · simp [addToDist, not_le.mpr h1, h2, (le_trans (by norm_num : (60 : ℚ) ≤ 80) h2), not_lt.mpr (le_trans (by norm_num : (70 : ℚ) ≤ 80) h2)]
        all_goals ring
      · rcases le_or_lt 70 c.score with h3 | h3
        · simp [addToDist, not_le.mpr h1, not_le.mpr h2, h3, (le_trans (by norm_num : (60 : ℚ) ≤ 70) h3), not_lt.mpr h3]
          all_goals ring
        · rcases le_or_lt 60 c.score with h4 | h4
          · simp [addToDist, not_le.mpr h1, not_le.mpr h2, not_le.mpr h3, h4, h3]
            all_goals ring
          · simp [addToDist, not_le.mpr h1, not_le.mpr h2, not_le.mpr h3, not_le.mpr h4, h3]
            all_goals ring

theorem foldl_addToDist_bLow (cs : List Course) (d : BandDist) :
    (cs.foldl addToDist d).bLow =
      d.bLow + sumCreditWhere (fun s => decide (s < 60)) cs := by
  induction cs generalizing d with
  | nil => simp [sumCreditWhere]
  | cons c cs ih =>
    rw [List.foldl_cons, ih, sumCreditWhere_cons]
    rcases le_or_lt 90 c.score with h1 | h1
    · simp [addToDist, h1, not_lt.mpr (le_trans (by norm_num : (60 : ℚ) ≤ 90) h1)]
      all_goals ring
    · rcases le_or_lt 80 c.score with h2 | h2
      · simp [addToDist, not_le.mpr h1, h2, not_lt.mpr (le_trans (by norm_num : (60 : ℚ) ≤ 80) h2)]
        all_goals ring
      · rcases le_or_lt 70 c.score with h3 | h3
        · simp [addToDist, not_le.mpr h1, not_le.mpr h2, h3, not_lt.mpr (le_trans (by norm_num : (60 : ℚ) ≤ 70) h3)]
          all_goals ring
        · rcases le_or_lt 60 c.score with h4 | h4
          · simp [addToDist, not_le.mpr h1, not_le.mpr h2, not_le.mpr h3, h4, not_lt.mpr h4]
            all_goals ring
          · simp [addToDist, not_le.mpr h1, not_le.mpr h2, not_le.mpr h3, not_le.mpr h4, h4]
            all_goals ring

theorem sumCredit_cons (c : Course) (cs : List Course) :
    sumCredit (c :: cs) = c.credit + sumCredit cs := by
  simp [sumCredit]

theorem five_bands_partition (cs : List Course) :
    sumCreditWhere (fun s => decide (90 ≤ s)) cs +
    sumCreditWhere (fun s => decide (80 ≤ s) && decide (s < 90)) cs +
    sumCreditWhere (fun s => decide (70 ≤ s) && decide (s < 80)) cs +
    sumCreditWhere (fun s => decide (60 ≤ s) && decide (s < 70)) cs +
    sumCreditWhere (fun s => decide (s < 60)) cs = sumCredit cs := by
  induction cs with
  | nil => simp [sumCreditWhere, sumCredit]
  | cons c cs ih =>
    simp only [sumCreditWhere_cons, sumCredit_cons]
    rcases le_or_lt 90 c.score with h1 | h1
    · simp [h1, not_lt.mpr h1, not_lt.mpr (le_trans (by norm_num : (80 : ℚ) ≤ 90) h1),
        not_lt.mpr (le_trans (by norm_num : (70 : ℚ) ≤ 90) h1),
        not_lt.mpr (le_trans (by norm_num : (60 : ℚ) ≤ 90) h1)]
      linarith [ih]
    · rcases le_or_lt 80 c.score with h2 | h2
      · simp [not_le.mpr h1, h2, h1, not_lt.mpr h2,
          not_lt.mpr (le_trans (by norm_num : (70 : ℚ) ≤ 80) h2),
          not_lt.mpr (le_trans (by norm_num : (60 : ℚ) ≤ 80) h2)]
        linarith [ih]
      · rcases le_or_lt 70 c.score with h3 | h3
        · simp [not_le.mpr h1, not_le.mpr h2, h3, h2, not_lt.mpr h3,
            not_lt.mpr (le_trans (by norm_num : (60 : ℚ) ≤ 70) h3)]
          linarith [ih]
        · rcases le_or_lt 60 c.score with h4 | h4
          · simp [not_le.mpr h1, not_le.mpr h2, not_le.mpr h3, h4, h3, not_lt.mpr h4]
            linarith [ih]
          · simp [not_le.mpr h1, not_le.mpr h2, not_le.mpr h3, not_le.mpr h4, h4]
            linarith [ih]

theorem chartData_eq_filter (cs : List Course) :
    chartData cs =
      ([("90-100 (优)", sumCreditWhere (fun s => decide (90 ≤ s)) cs),
        ("80-89 (良)", sumCreditWhere (fun s => decide (80 ≤ s) && decide (s < 90)) cs),
        ("70-79 (中)", sumCreditWhere (fun s => decide (70 ≤ s) && decide (s < 80)) cs),
        ("60-69 (及格)", sumCreditWhere (fun s => decide (60 ≤ s) && decide (s < 70)) cs),
        ("< 60 (不及格)", sumCreditWhere (fun s => decide (s < 60)) cs)]).filter
        (fun p => decide (0 < p.2)) := by
  simp only [chartData, foldl_addToDist_b90, foldl_addToDist_b80, foldl_addToDist_b70,
    foldl_addToDist_b60, foldl_addToDist_bLow, zero_add]

theorem sum_filter_pos (ql : List (String × ℚ)) (h : ∀ p ∈ ql, 0 ≤ p.2) :
    ((ql.filter (fun p => decide (0 < p.2))).map (fun p => p.2)).sum =
      (ql.map (fun p => p.2)).sum := by
  induction ql with
  | nil => simp
  | cons q ql ih =>
    have hq : 0 ≤ q.2 := h q (List.mem_cons_self _ _)
    have htail := ih (fun p hp => h p (List.mem_cons_of_mem _ hp))
    rcases hq.lt_or_eq with h1 | h1
    · simp [List.filter_cons, h1, htail]
    · simp [List.filter_cons, ← h1, htail]

theorem filter_pos_eq_filter_ne (ql : List (String × ℚ)) (h : ∀ p ∈ ql, 0 ≤ p.2) :
    ql.filter (fun p => decide (0 < p.2)) = ql.filter (fun p => !(p.2 == 0)) := by
  refine List.filter_congr ?_
  intro p hp
  rcases (h p hp).lt_or_eq with h1 | h1
  · simp only [h1, decide_eq_true_eq, decide_True, Bool.not_eq_true', beq_eq_false_iff_ne]
    simp [ne_of_gt h1]
  · simp [← h1]

theorem parseNum_nonneg (t : List Char) : 0 ≤ parseNum t := by
  unfold parseNum
  refine add_nonneg (Nat.cast_nonneg _) ?_
  split
  · exact div_nonneg (Nat.cast_nonneg _) (pow_nonneg (by norm_num) _)
  · exact le_refl 0

theorem disambiguate_fst (v1 v2 : ℚ) :
    (disambiguate v1 v2).1 = v1 ∨ (disambiguate v1 v2).1 = v2 := by
  unfold disambiguate
  split_ifs <;> simp

theorem disambiguate_snd (v1 v2 : ℚ) :
    (disambiguate v1 v2).2 = v1 ∨ (disambiguate v1 v2).2 = v2 := by
  unfold disambiguate
  split_ifs <;> simp

theorem parseLine_some_inv {line : List Char} {r : Course}
    (h : parseLine line = some r) :
    0 ≤ r.credit ∧ 0 ≤ r.score ∧ 1 ≤ r.name.length ∧ r.name.length < 50 ∧
    r.name ≠ [] ∧ r.isPlanned = false := by
  unfold parseLine at h
  generalize hcl : cleanedLine line = cl at h
  by_cases hdiv : isDivider (jsTrim line)
  · simp [hdiv] at h
  · simp only [hdiv, Bool.false_eq_true, if_false] at h
    cases hrev : (extractNumbers cl).reverse with
    | nil => rw [hrev] at h; simp at h
    | cons m2 rest =>
      cases rest with
      | nil => rw [hrev] at h; simp at h
      | cons m1 more =>
        rw [hrev] at h
        dsimp only at h
        split at h
        · rename_i hg
          simp only [Option.some.injEq] at h
          subst h
          refine ⟨?_, ?_, ?_, hg.2, hg.1, rfl⟩
          · rcases disambiguate_fst (parseNum m1) (parseNum m2) with he | he <;>
              simp [he, parseNum_nonneg]
          · rcases disambiguate_snd (parseNum m1) (parseNum m2) with he | he <;>
              simp [he, parseNum_nonneg]
          · exact Nat.one_le_iff_ne_zero.mpr
              (by simpa [List.length_eq_zero] using hg.1)
        · simp at h

theorem mem_parse_exists_line {text : List Char} {r : Course}
    (h : r ∈ parseTextLocally text) : ∃ line, parseLine line = some r := by
  unfold parseTextLocally at h
  rcases List.mem_filterMap.mp h with ⟨l, _, hl⟩
  exact ⟨l, hl⟩

theorem parseLine_eq (line : List Char) (ts : List (List Char))
    (t1 t2 name : List Char)
    (hdiv : isDivider (jsTrim line) = false)
    (hrev : (extractNumbers (cleanedLine line)).reverse = t2 :: t1 :: ts)
    (hname : jsTrim (stripTrailingPunct (jsTrim (collapseWs
      (removeLastOcc t1 (removeLastOcc t2 (cleanedLine line)))))) = name)
    (hne : name ≠ []) (hlt : name.length < 50) :
    parseLine line = some ⟨name, (disambiguate (parseNum t1) (parseNum t2)).1,
      (disambiguate (parseNum t1) (parseNum t2)).2, false⟩ := by
  unfold parseLine
  generalize hcl : cleanedLine line = cl
  rw [hcl] at hrev hname
  rw [hdiv]
  simp only [Bool.false_eq_true, if_false]
  rw [hrev]
  dsimp only
  rw [hname, if_pos ⟨hne, hlt⟩]

/-- Evaluation of the parser on the line `"xyz 3 150"` (here as an explicit
character list): the record `(name "xyz", credit 3, score 150)`. -/
theorem parse_xyz_3_150 :
    parseTextLocally ['x', 'y', 'z', ' ', '3', ' ', '1', '5', '0'] =
      [⟨['x', 'y', 'z'], 3, 150, false⟩] := by
  have hv1 : parseNum ['3'] = 3 := by
    rw [show parseNum ['3'] = ((3 : ℕ) : ℚ) + 0 from rfl]
    norm_num
  have hv2 : parseNum ['1', '5', '0'] = 150 := by
    rw [show parseNum ['1', '5', '0'] = ((150 : ℕ) : ℚ) + 0 from rfl]
    norm_num
  have hd : disambiguate 3 150 = (3, 150) := by norm_num [disambiguate]
  have hpl := parseLine_eq ['x', 'y', 'z', ' ', '3', ' ', '1', '5', '0'] []
    ['3'] ['1', '5', '0'] ['x', 'y', 'z'] rfl rfl rfl (by decide) (by decide)
  rw [hv1, hv2, hd] at hpl
  have hpl2 : parseLine ['x', 'y', 'z', ' ', '3', ' ', '1', '5', '0'] =
      some ⟨['x', 'y', 'z'], 3, 150, false⟩ := hpl
  unfold parseTextLocally
  rw [show (splitLines ['x', 'y', 'z', ' ', '3', ' ', '1', '5', '0']).filter
        (fun l => !(jsTrim l).isEmpty) = [['x', 'y', 'z', ' ', '3', ' ', '1', '5', '0']]
      from rfl]
  rw [List.filterMap_cons_some hpl2, List.filterMap_nil]

/-- C1 (amended): every record emitted by the local parser has
`credit ≥ 0`, `score ≥ 0` and `1 ≤ length(name) < 50`.  The upper bound
`score ≤ 100` of the original claim does not hold (see the counterexample):
the parser never caps the score. -/
theorem parse_record_ranges (text : List Char) (r : Course)
    (h : r ∈ parseTextLocally text) :
    0 ≤ r.credit ∧ 0 ≤ r.score ∧ 1 ≤ r.name.length ∧ r.name.length < 50 := by
  rcases mem_parse_exists_line h with ⟨line, hline⟩
  have hinv := parseLine_some_inv hline
  exact ⟨hinv.1, hinv.2.1, hinv.2.2.1, hinv.2.2.2.1⟩

/-- C1 counterexample: on the input line `"xyz 3 150"` the parser emits a
record whose score is 150, violating the claimed bound `score ≤ 100`. -/
theorem parse_score_can_exceed_100 :
    (parseTextLocally ['x', 'y', 'z', ' ', '3', ' ', '1', '5', '0']).map
        (fun r => r.score) = [150] ∧
      ¬ ((150 : ℚ) ≤ 100) := by
  rw [parse_xyz_3_150]
  norm_num

/-- C1 witness: the invariants hold for the concrete record parsed from
`"xyz 3 150"`. -/
theorem parse_record_ranges_witness :
    (⟨['x', 'y', 'z'], 3, 150, false⟩ : Course) ∈
        parseTextLocally ['x', 'y', 'z', ' ', '3', ' ', '1', '5', '0'] ∧
      (0 ≤ (⟨['x', 'y', 'z'], 3, 150, false⟩ : Course).credit ∧
        0 ≤ (⟨['x', 'y', 'z'], 3, 150, false⟩ : Course).score ∧
        1 ≤ (⟨['x', 'y', 'z'], 3, 150, false⟩ : Course).name.length ∧
        (⟨['x', 'y', 'z'], 3, 150, false⟩ : Course).name.length < 50) := by
  have hm : (⟨['x', 'y', 'z'], 3, 150, false⟩ : Course) ∈
      parseTextLocally ['x', 'y', 'z', ' ', '3', ' ', '1', '5', '0'] := by
    rw [parse_xyz_3_150]
    exact List.mem_singleton.mpr rfl
  exact ⟨hm, parse_record_ranges _ _ hm⟩

/-- C2: for a parsed line whose numeric tokens end in `t1, t2` (earlier
tokens are ignored), the emitted record's credit and score follow the
magnitude heuristic: `v1 ≤ 20 < v2` gives `(credit, score) = (v1, v2)`;
`v2 ≤ 20 < v1` gives `(v2, v1)`; otherwise the positional fallback
`(v1, v2)`. -/
theorem credit_score_disambiguation (line : List Char) (ts : List (List Char))
    (t1 t2 : List Char) (r : Course)
    (htok : extractNumbers (cleanedLine line) = ts ++ [t1, t2])
    (hr : parseLine line = some r) :
    (parseNum t1 ≤ 20 ∧ 20 < parseNum t2 →
      r.credit = parseNum t1 ∧ r.score = parseNum t2) ∧
    (parseNum t2 ≤ 20 ∧ 20 < parseNum t1 →
      r.credit = parseNum t2 ∧ r.score = parseNum t1) ∧
    (¬(parseNum t1 ≤ 20 ∧ 20 < parseNum t2) →
      ¬(parseNum t2 ≤ 20 ∧ 20 < parseNum t1) →
      r.credit = parseNum t1 ∧ r.score = parseNum t2) := by
  unfold parseLine at hr
  generalize hcl : cleanedLine line = cl at hr htok
  have hrev : (extractNumbers cl).reverse = t2 :: t1 :: ts.reverse := by
    rw [htok]
    simp
  by_cases hdiv : isDivider (jsTrim line)
  · simp [hdiv] at hr
  · simp only [hdiv, Bool.false_eq_true, if_false] at hr
    rw [hrev] at hr
    dsimp only at hr
    split at hr
    · simp only [Option.some.injEq] at hr
      subst hr
      unfold disambiguate
      split_ifs with h1 h2
      · exact ⟨fun _ => ⟨rfl, rfl⟩,
          fun hh => absurd hh (by rcases h1 with ⟨ha, hb⟩; intro hc; linarith [hc.1, hc.2]),
          fun hn1 _ => absurd h1 hn1⟩
      · exact ⟨fun hh => absurd hh h1, fun _ => ⟨rfl, rfl⟩,
          fun _ hn2 => absurd h2 hn2⟩
      · exact ⟨fun hh => absurd hh h1, fun hh => absurd hh h2,
          fun _ _ => ⟨rfl, rfl⟩⟩
    · simp at hr

/-- C2 witness: on `"第1学期 英语 3 85"` the earlier token `1` is ignored,
`v1 = 3 ≤ 20 < 85 = v2`, and rule 1 yields credit 3 and score 85. -/
theorem credit_score_disambiguation_witness :
    extractNumbers (cleanedLine "第1学期 英语 3 85".toList) =
        [['1']] ++ [['3'], ['8', '5']] ∧
      parseLine "第1学期 英语 3 85".toList =
        some ⟨"第1学期 英语".toList, 3, 85, false⟩ ∧
      (parseNum ['3'] ≤ 20 ∧ 20 < parseNum ['8', '5']) ∧
      (⟨"第1学期 英语".toList, 3, 85, false⟩ : Course).credit = parseNum ['3'] ∧
      (⟨"第1学期 英语".toList, 3, 85, false⟩ : Course).score = parseNum ['8', '5'] := by
  have hv1 : parseNum ['3'] = 3 := by
    rw [show parseNum ['3'] = ((3 : ℕ) : ℚ) + 0 from rfl]
    norm_num
  have hv2 : parseNum ['8', '5'] = 85 := by
    rw [show parseNum ['8', '5'] = ((85 : ℕ) : ℚ) + 0 from rfl]
    norm_num
  have htok : extractNumbers (cleanedLine "第1学期 英语 3 85".toList) =
      [['1']] ++ [['3'], ['8', '5']] := rfl
  have hd : disambiguate 3 85 = (3, 85) := by norm_num [disambiguate]
  have hpl := parseLine_eq "第1学期 英语 3 85".toList [['1']]
    ['3'] ['8', '5'] "第1学期 英语".toList rfl rfl rfl (by decide) (by decide)
  rw [hv1, hv2, hd] at hpl
  have hr : parseLine "第1学期 英语 3 85".toList =
      some ⟨"第1学期 英语".toList, 3, 85, false⟩ := hpl
  have hcase : parseNum ['3'] ≤ 20 ∧ 20 < parseNum ['8', '5'] := by
    rw [hv1, hv2]
    norm_num
  have hmain :=
    (credit_score_disambiguation _ [['1']] ['3'] ['8', '5'] _ htok hr).1 hcase
  exact ⟨htok, hr, hcase, hmain.1, hmain.2⟩

/-- C8: the parser is a total function (its embedding is a Lean `def`, so it
terminates on every input and cannot raise), and every record it emits is
fully assembled: a nonempty name and the default not-planned flag. -/
theorem parse_total_and_complete (text : List Char) (r : Course)
    (h : r ∈ parseTextLocally text) : r.name ≠ [] ∧ r.isPlanned = false := by
  rcases mem_parse_exists_line h with ⟨line, hline⟩
  have hinv := parseLine_some_inv hline
  exact ⟨hinv.2.2.2.2.1, hinv.2.2.2.2.2⟩

/-- C8 witness: the empty string and whitespace/garbage inputs yield the
empty record list, and the record parsed from `"xyz 3 150"` is complete. -/
theorem parse_total_and_complete_witness :
    parseTextLocally [] = [] ∧
      parseTextLocally "  \n@#$%\n\t".toList = [] ∧
      (⟨['x', 'y', 'z'], 3, 150, false⟩ : Course) ∈
        parseTextLocally ['x', 'y', 'z', ' ', '3', ' ', '1', '5', '0'] ∧
      ((⟨['x', 'y', 'z'], 3, 150, false⟩ : Course).name ≠ [] ∧
        (⟨['x', 'y', 'z'], 3, 150, false⟩ : Course).isPlanned = false) := by
  have hm : (⟨['x', 'y', 'z'], 3, 150, false⟩ : Course) ∈
      parseTextLocally ['x', 'y', 'z', ' ', '3', ' ', '1', '5', '0'] := by
    rw [parse_xyz_3_150]
    exact List.mem_singleton.mpr rfl
  exact ⟨rfl, rfl, hm, parse_total_and_complete _ _ hm⟩

theorem splitLines_ne_nil (cs : List Char) : splitLines cs ≠ [] := by
  induction cs with
  | nil => simp [splitLines]
  | cons c cs ih =>
    simp only [splitLines]
    split
    · simp
    · split
      · simp
      · simp

theorem splitLines_append (a b : List Char) :
    splitLines (a ++ '\n' :: b) = splitLines a ++ splitLines b := by
  induction a with
  | nil => simp [splitLines]
  | cons c a ih =>
    by_cases hc : c = '\n'
    · subst hc
      simp [splitLines, ih]
    · cases hsp : splitLines a with
      | nil => exact absurd hsp (splitLines_ne_nil a)
      | cons l ls =>
        simp [splitLines, hc, ih, hsp]

/-- C9: the parser processes lines independently and in order: the records
of `a ++ "\n" ++ b` are those of `a` followed by those of `b` (compared on
their `(name, credit, score)` content, since the real records also carry
fresh UUIDs). -/
theorem parse_lines_independent (a b : List Char) :
    (parseTextLocally (a ++ '\n' :: b)).map (fun r => (r.name, r.credit, r.score)) =
      (parseTextLocally a).map (fun r => (r.name, r.credit, r.score)) ++
        (parseTextLocally b).map (fun r => (r.name, r.credit, r.score)) := by
  unfold parseTextLocally
  rw [splitLines_append, List.filter_append, List.filterMap_append, List.map_append]

/-- C3 (amended): the statistics engine returns `totalCredits = Σ credit`,
`count = length`, and—because the source formats with `toFixed(2)`—the
weighted average and gpa as their quotients rounded to two decimal places.
For the example list the gpa is therefore 2.88 (2.875 rounded up), not
2.875 (see the counterexample). -/
theorem calculateStats_formula (cs : List Course) (h : 0 < sumCredit cs) :
    (calculateStats cs).totalCredits = sumCredit cs ∧
    (calculateStats cs).weightedAvg = toFixed2 (sumScoreCredit cs / sumCredit cs) ∧
    (calculateStats cs).gpa = toFixed2 (sumGradePoints cs / sumCredit cs) ∧
    (calculateStats cs).count = cs.length := by
  have h1 : cs.foldl (fun sum c => sum + c.credit) 0 = sumCredit cs := by
    rw [foldl_add_map]
    simp [sumCredit]
  have h2 : cs.foldl (fun sum c => sum + c.score * c.credit) 0 = sumScoreCredit cs := by
    rw [foldl_add_map]
    simp [sumScoreCredit]
  have h3 : cs.foldl (fun sum c => sum + gradePoint c.score * c.credit) 0 =
      sumGradePoints cs := by
    rw [foldl_add_map]
    simp [sumGradePoints]
  unfold calculateStats
  simp only [h1, h2, h3, if_pos h]
  trivial

/-- C3 counterexample: on the spec's own example
`[{credit 5, score 90}, {credit 3, score 60}]` the engine returns
`gpa = 2.88` (the `toFixed(2)` rounding of 2.875), so the claimed value
2.875 is not returned; `weightedAvg = 78.75` and `totalCredits = 8` do
hold. -/
theorem calculateStats_gpa_rounded :
    (calculateStats [⟨['a'], 5, 90, false⟩, ⟨['b'], 3, 60, false⟩]).gpa ≠ 2.875 ∧
    (calculateStats [⟨['a'], 5, 90, false⟩, ⟨['b'], 3, 60, false⟩]).gpa = 2.88 ∧
    (calculateStats [⟨['a'], 5, 90, false⟩, ⟨['b'], 3, 60, false⟩]).totalCredits = 8 ∧
    (calculateStats [⟨['a'], 5, 90, false⟩, ⟨['b'], 3, 60, false⟩]).weightedAvg
      = 78.75 := by
  have h90 : gradePoint 90 = 4 := by norm_num [gradePoint]
  have h60 : gradePoint 60 = 1 := by norm_num [gradePoint]
  refine ⟨?_, ?_, ?_, ?_⟩ <;>
    simp [calculateStats, toFixed2, h90, h60] <;> norm_num

/-- C3 witness: the amended formula instantiated on the example list. -/
theorem calculateStats_formula_witness :
    0 < sumCredit [⟨['a'], 5, 90, false⟩, ⟨['b'], 3, 60, false⟩] ∧
    ((calculateStats [⟨['a'], 5, 90, false⟩, ⟨['b'], 3, 60, false⟩]).totalCredits =
        sumCredit [⟨['a'], 5, 90, false⟩, ⟨['b'], 3, 60, false⟩] ∧
      (calculateStats [⟨['a'], 5, 90, false⟩, ⟨['b'], 3, 60, false⟩]).weightedAvg =
        toFixed2 (sumScoreCredit [⟨['a'], 5, 90, false⟩, ⟨['b'], 3, 60, false⟩] /
          sumCredit [⟨['a'], 5, 90, false⟩, ⟨['b'], 3, 60, false⟩]) ∧
      (calculateStats [⟨['a'], 5, 90, false⟩, ⟨['b'], 3, 60, false⟩]).gpa =
        toFixed2 (sumGradePoints [⟨['a'], 5, 90, false⟩, ⟨['b'], 3, 60, false⟩] /
          sumCredit [⟨['a'], 5, 90, false⟩, ⟨['b'], 3, 60, false⟩]) ∧
      (calculateStats [⟨['a'], 5, 90, false⟩, ⟨['b'], 3, 60, false⟩]).count =
        ([⟨['a'], 5, 90, false⟩, ⟨['b'], 3, 60, false⟩] : List Course).length) := by
  have hpos : 0 < sumCredit [⟨['a'], 5, 90, false⟩, ⟨['b'], 3, 60, false⟩] := by
    norm_num [sumCredit]
  exact ⟨hpos, calculateStats_formula _ hpos⟩

theorem credits_all_zero {cs : List Course} (hc : ∀ c ∈ cs, 0 ≤ c.credit)
    (h0 : sumCredit cs = 0) : ∀ c ∈ cs, c.credit = 0 := by
  induction cs with
  | nil => simp
  | cons c cs ih =>
    have htail : 0 ≤ sumCredit cs :=
      List.sum_nonneg (by
        intro x hx
        rcases List.mem_map.mp hx with ⟨d, hm, rfl⟩
        exact hc d (List.mem_cons_of_mem _ hm))
    have hhead : 0 ≤ c.credit := hc c (List.mem_cons_self _ _)
    have hsum : c.credit + sumCredit cs = 0 := by
      rw [← sumCredit_cons]
      exact h0
    have hczero : c.credit = 0 := by linarith
    have hcs0 : sumCredit cs = 0 := by linarith
    intro x hx
    rcases List.mem_cons.mp hx with rfl | hx
    · exact hczero
    · exact ih (fun d hd => hc d (List.mem_cons_of_mem _ hd)) hcs0 x hx

/-- C7 (amended): on any record list with nonnegative credits totalling 0
(in particular the empty list), the engine returns
`totalCredits = 0`, `weightedAverage = 0`, `gpa = 0` and an empty
distribution—no division by zero—but `count` is the length of the list,
not 0 (see the counterexample). -/
theorem calculateStats_zero_credits (cs : List Course)
    (hc : ∀ c ∈ cs, 0 ≤ c.credit) (h0 : sumCredit cs = 0) :
    (calculateStats cs).totalCredits = 0 ∧ (calculateStats cs).weightedAvg = 0 ∧
    (calculateStats cs).gpa = 0 ∧ (calculateStats cs).count = cs.length ∧
    chartData cs = [] := by
  have h1 : cs.foldl (fun sum c => sum + c.credit) 0 = sumCredit cs := by
    rw [foldl_add_map]
    simp [sumCredit]
  have hz := credits_all_zero hc h0
  have hnotpos : ¬ (0 : ℚ) < 0 := lt_irrefl 0
  refine ⟨?_, ?_, ?_, rfl, ?_⟩
  · unfold calculateStats
    simp only [h1, h0]
  · unfold calculateStats
    simp only [h1, h0, if_neg hnotpos]
  · unfold calculateStats
    simp only [h1, h0, if_neg hnotpos]
  · rw [chartData_eq_filter]
    simp [sumCreditWhere_zero _ _ hz]

/-- C7 counterexample: the single-record list `[{credit 0, score 50}]` has
total credits 0 but `count = 1`, refuting the claimed `count = 0`. -/
theorem calculateStats_zero_count_nonzero :
    sumCredit [⟨['z'], 0, 50, false⟩] = 0 ∧
    (calculateStats [⟨['z'], 0, 50, false⟩]).totalCredits = 0 ∧
    (calculateStats [⟨['z'], 0, 50, false⟩]).count = 1 := by
  refine ⟨by norm_num [sumCredit], ?_, rfl⟩
  simp [calculateStats]

/-- C7 witness: the amended statement instantiated on `[{credit 0, score 50}]`,
whose count is its length 1. -/
theorem calculateStats_zero_credits_witness :
    (∀ c ∈ ([⟨['z'], 0, 50, false⟩] : List Course), 0 ≤ c.credit) ∧
    sumCredit [⟨['z'], 0, 50, false⟩] = 0 ∧
    ((calculateStats [⟨['z'], 0, 50, false⟩]).totalCredits = 0 ∧
      (calculateStats [⟨['z'], 0, 50, false⟩]).weightedAvg = 0 ∧
      (calculateStats [⟨['z'], 0, 50, false⟩]).gpa = 0 ∧
      (calculateStats [⟨['z'], 0, 50, false⟩]).count =
        ([⟨['z'], 0, 50, false⟩] : List Course).length ∧
      chartData [⟨['z'], 0, 50, false⟩] = []) := by
  have hc : ∀ c ∈ ([⟨['z'], 0, 50, false⟩] : List Course), 0 ≤ c.credit := by
    intro c hcm
    rcases List.mem_singleton.mp hcm with rfl
    norm_num
  have h0 : sumCredit [⟨['z'], 0, 50, false⟩] = 0 := by norm_num [sumCredit]
  exact ⟨hc, h0, calculateStats_zero_credits _ hc h0⟩

/-- C6: for records within the data model's ranges (scores in `[0, 100]`,
credits nonnegative), the distribution credits each record to the band
containing its score among `[90,100], [80,90), [70,80), [60,70), [0,60)`,
and omits exactly the bands whose accumulated credit is zero. -/
theorem chartData_distribution (cs : List Course)
    (hs : ∀ c ∈ cs, 0 ≤ c.score ∧ c.score ≤ 100)
    (hc : ∀ c ∈ cs, 0 ≤ c.credit) :
    chartData cs =
      ([("90-100 (优)", sumCreditWhere (fun s => decide (90 ≤ s) && decide (s ≤ 100)) cs),
        ("80-89 (良)", sumCreditWhere (fun s => decide (80 ≤ s) && decide (s < 90)) cs),
        ("70-79 (中)", sumCreditWhere (fun s => decide (70 ≤ s) && decide (s < 80)) cs),
        ("60-69 (及格)", sumCreditWhere (fun s => decide (60 ≤ s) && decide (s < 70)) cs),
        ("< 60 (不及格)", sumCreditWhere (fun s => decide (0 ≤ s) && decide (s < 60)) cs)]).filter
        (fun p => !(p.2 == 0)) := by
  have e90 : sumCreditWhere (fun s => decide (90 ≤ s)) cs =
      sumCreditWhere (fun s => decide (90 ≤ s) && decide (s ≤ 100)) cs := by
    refine sumCreditWhere_congr cs ?_
    intro c hm
    have h100 := (hs c hm).2
    by_cases h : 90 ≤ c.score <;> simp [h, h100]
  have eLow : sumCreditWhere (fun s => decide (s < 60)) cs =
      sumCreditWhere (fun s => decide (0 ≤ s) && decide (s < 60)) cs := by
    refine sumCreditWhere_congr cs ?_
    intro c hm
    have h0 := (hs c hm).1
    by_cases h : c.score < 60 <;> simp [h, h0]
  rw [chartData_eq_filter, e90, eLow]
  refine filter_pos_eq_filter_ne _ ?_
  intro p hp
  simp only [List.mem_cons, List.not_mem_nil, or_false] at hp
  rcases hp with rfl | rfl | rfl | rfl | rfl <;>
    exact sumCreditWhere_nonneg _ _ hc

/-- C6 witness: a concrete in-range list with one empty band (70-79), which
is omitted, the others kept. -/
theorem chartData_distribution_witness :
    (∀ c ∈ ([⟨['a'], 2, 95, false⟩, ⟨['b'], 3, 55, false⟩,
        ⟨['c'], 1, 83, false⟩] : List Course), 0 ≤ c.score ∧ c.score ≤ 100) ∧
    (∀ c ∈ ([⟨['a'], 2, 95, false⟩, ⟨['b'], 3, 55, false⟩,
        ⟨['c'], 1, 83, false⟩] : List Course), 0 ≤ c.credit) ∧
    chartData [⟨['a'], 2, 95, false⟩, ⟨['b'], 3, 55, false⟩, ⟨['c'], 1, 83, false⟩] =
      ([("90-100 (优)", sumCreditWhere (fun s => decide (90 ≤ s) && decide (s ≤ 100))
          [⟨['a'], 2, 95, false⟩, ⟨['b'], 3, 55, false⟩, ⟨['c'], 1, 83, false⟩]),
        ("80-89 (良)", sumCreditWhere (fun s => decide (80 ≤ s) && decide (s < 90))
          [⟨['a'], 2, 95, false⟩, ⟨['b'], 3, 55, false⟩, ⟨['c'], 1, 83, false⟩]),
        ("70-79 (中)", sumCreditWhere (fun s => decide (70 ≤ s) && decide (s < 80))
          [⟨['a'], 2, 95, false⟩, ⟨['b'], 3, 55, false⟩, ⟨['c'], 1, 83, false⟩]),
        ("60-69 (及格)", sumCreditWhere (fun s => decide (60 ≤ s) && decide (s < 70))
          [⟨['a'], 2, 95, false⟩, ⟨['b'], 3, 55, false⟩, ⟨['c'], 1, 83, false⟩]),
        ("< 60 (不及格)", sumCreditWhere (fun s => decide (0 ≤ s) && decide (s < 60))
          [⟨['a'], 2, 95, false⟩, ⟨['b'], 3, 55, false⟩, ⟨['c'], 1, 83, false⟩])]).filter
        (fun p => !(p.2 == 0)) := by
  have hs : ∀ c ∈ ([⟨['a'], 2, 95, false⟩, ⟨['b'], 3, 55, false⟩,
      ⟨['c'], 1, 83, false⟩] : List Course), 0 ≤ c.score ∧ c.score ≤ 100 := by
    intro c hm
    simp only [List.mem_cons, List.not_mem_nil, or_false] at hm
    rcases hm with rfl | rfl | rfl <;> norm_num
  have hc : ∀ c ∈ ([⟨['a'], 2, 95, false⟩, ⟨['b'], 3, 55, false⟩,
      ⟨['c'], 1, 83, false⟩] : List Course), 0 ≤ c.credit := by
    intro c hm
    simp only [List.mem_cons, List.not_mem_nil, or_false] at hm
    rcases hm with rfl | rfl | rfl <;> norm_num
  exact ⟨hs, hc, chartData_distribution _ hs hc⟩

/-- C10: with nonnegative credits, the distribution's displayed credit
values sum to the total credits: every record lands in exactly one band;
in particular scores of 90 and above (even above 100) accumulate in the
`90-100` band and scores below 60 (even negative) in the `< 60` band. -/
theorem chartData_total_credits (cs : List Course)
    (hc : ∀ c ∈ cs, 0 ≤ c.credit) :
    ((chartData cs).map (fun p => p.2)).sum = sumCredit cs ∧
    (cs.foldl addToDist ⟨0, 0, 0, 0, 0⟩).b90 =
      sumCreditWhere (fun s => decide (90 ≤ s)) cs ∧
    (cs.foldl addToDist ⟨0, 0, 0, 0, 0⟩).bLow =
      sumCreditWhere (fun s => decide (s < 60)) cs := by
  refine ⟨?_, by rw [foldl_addToDist_b90]; ring, by rw [foldl_addToDist_bLow]; ring⟩
  rw [chartData_eq_filter]
  rw [sum_filter_pos]
  · simp only [List.map_cons, List.map_nil, List.sum_cons, List.sum_nil, add_zero]
    linarith [five_bands_partition cs]
  · intro p hp
    simp only [List.mem_cons, List.not_mem_nil, or_false] at hp
    rcases hp with rfl | rfl | rfl | rfl | rfl <;>
      exact sumCreditWhere_nonneg _ _ hc

/-- C10 witness: a list containing an out-of-range score above 100 and a
negative score; they land in the top and bottom bands and the distribution
still sums to the total credits. -/
theorem chartData_total_credits_witness :
    (∀ c ∈ ([⟨['a'], 2, 105, false⟩, ⟨['b'], 3, -5, false⟩] : List Course),
      0 ≤ c.credit) ∧
    (((chartData [⟨['a'], 2, 105, false⟩, ⟨['b'], 3, -5, false⟩]).map
        (fun p => p.2)).sum =
      sumCredit [⟨['a'], 2, 105, false⟩, ⟨['b'], 3, -5, false⟩] ∧
      (([⟨['a'], 2, 105, false⟩, ⟨['b'], 3, -5, false⟩] : List Course).foldl
          addToDist ⟨0, 0, 0, 0, 0⟩).b90 =
        sumCreditWhere (fun s => decide (90 ≤ s))
          [⟨['a'], 2, 105, false⟩, ⟨['b'], 3, -5, false⟩] ∧
      (([⟨['a'], 2, 105, false⟩, ⟨['b'], 3, -5, false⟩] : List Course).foldl
          addToDist ⟨0, 0, 0, 0, 0⟩).bLow =
        sumCreditWhere (fun s => decide (s < 60))
          [⟨['a'], 2, 105, false⟩, ⟨['b'], 3, -5, false⟩]) := by
  have hc : ∀ c ∈ ([⟨['a'], 2, 105, false⟩, ⟨['b'], 3, -5, false⟩] : List Course),
      0 ≤ c.credit := by
    intro c hm
    simp only [List.mem_cons, List.not_mem_nil, or_false] at hm
    rcases hm with rfl | rfl <;> norm_num
  exact ⟨hc, chartData_total_credits _ hc⟩

/-- A bounded occurrence of `key` at position `q` of `cs`, as the grade-token
regex matches it: at the start of the line or preceded by a left-boundary
character, and followed by a right boundary (built into `boundedHere`). -/
def boundedOccB (key cs : List Char) (q : ℕ) : Bool :=
  (q == 0 ||
    (match cs.get? (q - 1) with
     | some c => isLB c
     | none => false)) &&
  boundedHere key (cs.drop q)

theorem ciPrefix_refl_append (key s : List Char) : ciPrefix key (key ++ s) = true := by
  induction key with
  | nil => rfl
  | cons k ks ih => simp [ciPrefix, ciEq, ih]

theorem boundedHere_append (key s : List Char) (hR : s.head?.all isRB = true) :
    boundedHere key (key ++ s) = true := by
  unfold boundedHere
  rw [ciPrefix_refl_append]
  simp only [Bool.true_and, List.drop_left]
  cases s with
  | nil => rfl
  | cons c s => simpa [Option.all_some] using hR

theorem replAux_hits (key val s : List Char)
    (hkey : boundedHere key (key ++ s) = true) :
    ∀ p : List Char, ∀ hp : p ≠ [],
      isLB (p.getLast hp) = true →
      (∀ q, q + 1 < p.length →
        ¬(isLB (p.getD q ' ') = true ∧
          boundedHere key (p.drop (q + 1) ++ key ++ s) = true)) →
      replAux key val (p ++ key ++ s) = p ++ val ++ s := by
  intro p
  induction p with
  | nil => intro hp _ _; exact absurd rfl hp
  | cons c p ih =>
    intro hp hlast hmiss
    cases p with
    | nil =>
      have hc : isLB c = true := by
        simpa [List.getLast_singleton] using hlast
      simp only [List.cons_append, List.nil_append, replAux, List.append_eq]
      rw [if_pos (by rw [hc, hkey]; rfl)]
      rw [List.drop_left]
    | cons d p2 =>
      have hmiss0 := hmiss 0 (by simp)
      simp only [List.getD_cons_zero, zero_add, List.drop_succ_cons,
        List.drop_zero] at hmiss0
      have hcond : ¬((isLB c && boundedHere key ((d :: p2) ++ key ++ s)) = true) := by
        simp only [Bool.and_eq_true]
        simpa using hmiss0
      simp only [List.cons_append, replAux, List.append_eq]
      rw [if_neg (by simpa [List.append_eq, List.cons_append] using hcond)]
      have htail := ih (by simp)
        (by simpa [List.getLast_cons] using hlast)
        (by
          intro q hq
          have := hmiss (q + 1) (by simpa using Nat.succ_lt_succ hq)
          simpa [List.getD_cons_succ, List.drop_succ_cons] using this)
      simp only [replAux, List.cons_append, List.append_eq] at htail
      rw [htail]

/-- C4: for each grade token of the fixed table, when a cleaned line has the
shape `p ++ key ++ s` with a left boundary at the end of `p` (or `p` empty),
a right boundary at the start of `s` (or `s` empty), and no earlier bounded
occurrence of the token, the normalizer rewrites exactly that occurrence to
the numeric value and leaves the rest of the line—including any later
occurrence of the same token inside `s`—unchanged. -/
theorem grade_token_first_replacement (key val : String)
    (hkv : (key, val) ∈ gradeMap) (p s : List Char)
    (hL : p.getLast?.all isLB = true)
    (hR : s.head?.all isRB = true)
    (hfirst : ∀ q < p.length,
      boundedOccB key.toList (p ++ key.toList ++ s) q = false) :
    replaceFirstGrade key.toList val.toList (p ++ key.toList ++ s) =
      p ++ val.toList ++ s := by
  have hkeyB : boundedHere key.toList (key.toList ++ s) = true :=
    boundedHere_append _ _ hR
  rcases p with _ | ⟨c, p2⟩
  · simp only [List.nil_append]
    unfold replaceFirstGrade
    rw [if_pos hkeyB]
    rw [List.drop_left]
  · have h0 := hfirst 0 (by simp)
    have hnot : boundedHere key.toList ((c :: p2) ++ key.toList ++ s) = false := by
      simpa [boundedOccB] using h0
    unfold replaceFirstGrade
    rw [if_neg (by
      simp only [String.toList] at hnot
      simp only [List.cons_append, List.append_assoc] at hnot ⊢
      simp [hnot])]
    refine replAux_hits key.toList val.toList s hkeyB (c :: p2) (by simp)
      (by
        have hne : (c :: p2) ≠ [] := by simp
        rw [List.getLast?_eq_getLast (c :: p2) hne] at hL
        simpa using hL)
      ?_
    intro q hq
    intro hcontra
    rcases hcontra with ⟨hlb, hbh⟩
    have hfq := hfirst (q + 1) (by simpa using hq)
    have hget : ((c :: p2) ++ key.toList ++ s).get? (q + 1 - 1) =
        some ((c :: p2).getD q ' ') := by
      simp only [Nat.add_sub_cancel]
      rw [List.append_assoc]
      rw [List.get?_append (Nat.lt_of_succ_lt hq)]
      rw [List.getD_eq_get?]
      cases hg : (c :: p2).get? q with
      | none =>
        have hlen := List.get?_eq_none.mp hg
        have : q < (c :: p2).length := Nat.lt_of_succ_lt hq
        omega
      | some x =>
        rfl
    have hdrop : ((c :: p2) ++ key.toList ++ s).drop (q + 1) =
        (c :: p2).drop (q + 1) ++ key.toList ++ s := by
      rw [List.append_assoc, List.drop_append_of_le_length (le_of_lt hq),
        List.append_assoc]
    unfold boundedOccB at hfq
    rw [hget, hdrop] at hfq
    simp at hfq
    rw [List.getD_eq_getElem?_getD] at hlb
    simp only [List.drop_succ_cons, List.append_assoc, String.toList] at hbh
    have hffalse := hfq hlb
    rw [hffalse] at hbh
    exact Bool.false_ne_true hbh

/-- C4 witness: in the line `"x 优 优"` (split as `"x " ++ "优" ++ " 优"`)
only the first `优` is rewritten to `95`; the second occurrence survives
verbatim. -/
theorem grade_token_first_replacement_witness :
    ("优", "95") ∈ gradeMap ∧
    replaceFirstGrade "优".toList "95".toList
        (['x', ' '] ++ "优".toList ++ [' ', '优']) =
      ['x', ' '] ++ "95".toList ++ [' ', '优'] :=
  ⟨by decide, grade_token_first_replacement "优" "95" (by decide)
    ['x', ' '] [' ', '优'] (by decide) (by decide) (by decide)⟩

theorem map_eq_self_of_fixed {f : Char → Char} {l : List Char}
    (h : ∀ c ∈ l, f c = c) : l.map f = l := by
  induction l with
  | nil => rfl
  | cons c cs ih =>
    rw [List.map_cons, h c (List.mem_cons_self _ _),
      ih (fun d hd => h d (List.mem_cons_of_mem _ hd))]

theorem filterMap_congr_mem {α β : Type} {f g : α → Option β} (ls : List α)
    (h : ∀ l ∈ ls, f l = g l) : ls.filterMap f = ls.filterMap g := by
  induction ls with
  | nil => rfl
  | cons l ls ih =>
    rw [List.filterMap_cons, List.filterMap_cons, h l (List.mem_cons_self _ _),
      ih (fun x hx => h x (List.mem_cons_of_mem _ hx))]

theorem filterMap_guard (q : List Char → Bool) (ls : List (List Char)) :
    ls.filterMap (fun l => if q l then none else some l) =
      ls.filter (fun l => !q l) := by
  induction ls with
  | nil => rfl
  | cons l ls ih =>
    by_cases h : q l <;>
      simp [List.filterMap_cons, List.filter_cons, h, ih]

theorem jsTrim_idem (l : List Char) : jsTrim (jsTrim l) = jsTrim l := by
  unfold jsTrim
  have h1 : List.dropWhile isJsSpace
      (List.rdropWhile isJsSpace (List.dropWhile isJsSpace l)) =
      List.rdropWhile isJsSpace (List.dropWhile isJsSpace l) := by
    cases hcons : List.rdropWhile isJsSpace (List.dropWhile isJsSpace l) with
    | nil => rfl
    | cons a r =>
      have hpre := List.rdropWhile_prefix isJsSpace (List.dropWhile isJsSpace l)
      rw [hcons] at hpre
      rcases hpre with ⟨t, ht⟩
      have hm_ne : List.dropWhile isJsSpace l ≠ [] := by
        rw [← ht]
        simp
      have hhead : (List.dropWhile isJsSpace l).head hm_ne = a := by
        simp only [← ht, List.cons_append, List.head_cons]
      have hnotws := List.head_dropWhile_not isJsSpace l hm_ne
      rw [hhead] at hnotws
      rw [List.dropWhile_cons, hnotws]
      simp
  rw [h1, List.rdropWhile_idempotent]

theorem mem_of_mem_jsTrim {c : Char} {l : List Char} (h : c ∈ jsTrim l) : c ∈ l := by
  unfold jsTrim at h
  have h1 := (List.rdropWhile_prefix isJsSpace (List.dropWhile isJsSpace l)).sublist.subset h
  exact (List.dropWhile_suffix isJsSpace).sublist.subset h1

theorem splitLines_no_newline (t : List Char) :
    ∀ line ∈ splitLines t, '\n' ∉ line := by
  induction t with
  | nil =>
    intro line h
    simp [splitLines] at h
    subst h
    simp
  | cons c cs ih =>
    intro line h
    simp only [splitLines] at h
    split at h
    · rcases List.mem_cons.mp h with rfl | h2
      · simp
      · exact ih line h2
    · rename_i hc
      split at h
      · rename_i hnil
        rcases List.mem_singleton.mp h with rfl
        simp only [List.mem_singleton]
        exact fun hh => hc hh.symm
      · rename_i l ls hcs
        rcases List.mem_cons.mp h with rfl | h2
        · have hl : l ∈ splitLines cs := by
            rw [hcs]
            exact List.mem_cons_self _ _
          have hni := ih l hl
          simp only [List.mem_cons, not_or]
          exact ⟨fun hh => hc hh.symm, hni⟩
        · exact ih line (by rw [hcs]; exact List.mem_cons_of_mem _ h2)

theorem splitLines_eq_single {l : List Char} (h : '\n' ∉ l) : splitLines l = [l] := by
  induction l with
  | nil => rfl
  | cons c cs ih =>
    have hc : ¬(c = '\n') := by
      intro hcc
      exact h (by rw [hcc]; exact List.mem_cons_self _ _)
    have hcs : '\n' ∉ cs := fun h2 => h (List.mem_cons_of_mem _ h2)
    simp only [splitLines, hc, if_false, ih hcs]

theorem splitLines_joinLines {ls : List (List Char)} (hne : ls ≠ [])
    (h : ∀ l ∈ ls, '\n' ∉ l) : splitLines (joinLines ls) = ls := by
  induction ls with
  | nil => contradiction
  | cons l ls ih =>
    cases ls with
    | nil =>
      simpa [joinLines] using splitLines_eq_single (h l (List.mem_cons_self _ _))
    | cons l2 ls2 =>
      rw [show joinLines (l :: l2 :: ls2) = l ++ '\n' :: joinLines (l2 :: ls2) from rfl]
      rw [splitLines_append, splitLines_eq_single (h l (List.mem_cons_self _ _)),
        ih (by simp) (fun x hx => h x (List.mem_cons_of_mem _ hx))]
      rfl

theorem preprocess_clean (t : List Char) :
    ∀ l ∈ preprocess t, jsTrim l = l ∧
      ∀ c ∈ l, c ≠ '\n' ∧ c ≠ '|' ∧ c ≠ ',' ∧ c ≠ '，' ∧ c ≠ '\t' := by
  intro l hl
  unfold preprocess at hl
  rcases List.mem_filterMap.mp hl with ⟨line, hline, hsome⟩
  by_cases hdiv : isDivider (jsTrim line)
  · simp [hdiv] at hsome
  · simp only [hdiv, Bool.false_eq_true, if_false, Option.some.injEq] at hsome
    subst hsome
    refine ⟨jsTrim_idem _, ?_⟩
    intro c hc
    have hc2 := mem_of_mem_jsTrim hc
    rcases List.mem_map.mp hc2 with ⟨c1, hc1, rfl⟩
    rcases List.mem_map.mp hc1 with ⟨c0, hc0, rfl⟩
    have hc0line : c0 ∈ line := mem_of_mem_jsTrim hc0
    have hline_mem : line ∈ splitLines t := List.mem_of_mem_filter hline
    have hn : '\n' ∉ line := splitLines_no_newline t line hline_mem
    have hc0n : ¬(c0 = '\n') := fun hh => hn (hh ▸ hc0line)
    unfold sepToSpace pipeToSpace
    split_ifs with h1 h2 h3 <;> simp_all <;> decide

theorem preprocess_joinLines_clean (ls : List (List Char))
    (hcl : ∀ l ∈ ls, jsTrim l = l ∧
      ∀ c ∈ l, c ≠ '\n' ∧ c ≠ '|' ∧ c ≠ ',' ∧ c ≠ '，' ∧ c ≠ '\t') :
    preprocess (joinLines ls) =
      ls.filter (fun l => !l.isEmpty && !isDivider l) := by
  cases ls with
  | nil => rfl
  | cons l0 ls0 =>
    unfold preprocess
    rw [splitLines_joinLines (by simp)
      (fun l hl hmem => ((hcl l hl).2 '\n' hmem).1 rfl)]
    rw [List.filter_congr (fun l hl => by
      rw [(hcl l hl).1])]
    rw [filterMap_congr_mem _ (fun l hl => by
      have hcll := hcl l (List.mem_of_mem_filter hl)
      have ht : jsTrim l = l := hcll.1
      have hpipe : l.map pipeToSpace = l :=
        map_eq_self_of_fixed (fun c hc => by
          unfold pipeToSpace
          rw [if_neg (hcll.2 c hc).2.1])
      have hsep : l.map sepToSpace = l :=
        map_eq_self_of_fixed (fun c hc => by
          unfold sepToSpace
          rcases hcll.2 c hc with ⟨-, -, h1, h2, h3⟩
          rw [if_neg (by simp [h1, h2, h3])])
      show (let t := jsTrim l;
        if isDivider t then none
        else some (jsTrim ((t.map pipeToSpace).map sepToSpace))) =
        (fun l => if isDivider l then none else some l) l
      simp only [ht, hpipe, hsep])]
    rw [filterMap_guard]
    rw [List.filter_filter]
    exact List.filter_congr (fun x hx => Bool.and_comm _ _)

/-- C5 counterexample: the line `",-,"` survives the first pass as `"-"`
(the commas become spaces, which are trimmed), but a second pass drops
`"-"` as a Markdown divider row: the preprocessor is not idempotent. -/
theorem preprocess_not_idempotent :
    preprocess (joinLines (preprocess [',', '-', ','])) ≠
        preprocess [',', '-', ','] ∧
      preprocess [',', '-', ','] = [['-']] ∧
      preprocess (joinLines (preprocess [',', '-', ','])) = [] := by
  refine ⟨?_, rfl, rfl⟩
  rw [show preprocess (joinLines (preprocess [',', '-', ','])) = ([] : List (List Char))
      from rfl,
    show preprocess [',', '-', ','] = [['-']] from rfl]
  simp

/-- C5 (amended): one preprocessor pass can still output lines that a fresh
run would drop (lines that became empty or divider-shaped only after
separator replacement), so the preprocessor is not idempotent; it is
idempotent from the second application onwards: a third pass returns the
second pass's output unchanged, for every input text. -/
theorem preprocess_twice_stable (t : List Char) :
    preprocess (joinLines (preprocess (joinLines (preprocess t)))) =
      preprocess (joinLines (preprocess t)) := by
  have hcl1 := preprocess_clean t
  have h2 := preprocess_joinLines_clean (preprocess t) hcl1
  rw [h2]
  rw [preprocess_joinLines_clean _
    (fun l hl => hcl1 l (List.mem_of_mem_filter hl))]
  rw [List.filter_filter]
  exact List.filter_congr (fun x hx => Bool.and_self _)
